import Mathlib

/-!
Verification of the CSV-ingestion pipeline and the dual-backend person
repository of the assecor-assessment-backend service.

The Go source is embedded shallowly:

* Strings are modelled as lists of characters (abbreviation Str), so the
  relevant functions from the Go standard library (strings.Split,
  strings.TrimSpace, strings.Join, strings.ReplaceAll, strings.SplitN,
  strconv.Atoi) are given explicit executable models below.
* Machine integers (Go int on a 64-bit platform) are modelled as Int;
  the only place the width matters is strconv.Atoi's range check, which
  is modelled explicitly.
* Fallible operations return Except RepoErr; the Go code distinguishes
  error conditions via wrapped sentinel errors (domain.ErrNotFound,
  domain.ErrCapacityReached, ...), modelled as the closed inductive
  RepoErr.
* Go slices distinguish nil from an empty-but-allocated slice; where a
  claim depends on that distinction (a present zero-length result) the
  returned collection is a GoSlice carrying an isNil flag.

Sources embedded: internal/domain/person.go, the in-memory repository
(internal/repository/csv, in the revision with limit/offset pagination),
and internal/repository/sqlite/sqlite.go.
-/

/-- Byte-content of a Go string, modelled as a list of characters. -/
abbrev Str := List Char

/-- Model of unicode.IsSpace from the Go standard library (used by
strings.TrimSpace): the White_Space property characters. -/
def goIsSpace (c : Char) : Bool :=
  c = ' ' ∨ c = '\t' ∨ c = '\n' ∨ c = ⟨0x0B, by decide⟩ ∨ c = ⟨0x0C, by decide⟩ ∨
  c = '\r' ∨ c = ⟨0x85, by decide⟩ ∨ c = ⟨0xA0, by decide⟩ ∨ c = ⟨0x1680, by decide⟩ ∨
  (⟨0x2000, by decide⟩ ≤ c ∧ c ≤ ⟨0x200A, by decide⟩) ∨
  c = ⟨0x2028, by decide⟩ ∨ c = ⟨0x2029, by decide⟩ ∨ c = ⟨0x202F, by decide⟩ ∨
  c = ⟨0x205F, by decide⟩ ∨ c = ⟨0x3000, by decide⟩

/-- Model of strings.TrimSpace: remove leading and trailing white space. -/
def goTrimSpace (s : Str) : Str :=
  ((s.dropWhile goIsSpace).reverse.dropWhile goIsSpace).reverse

/-- Helper for splitChar, carrying the current (reversed) chunk. -/
def splitCharAux (sep : Char) (cur : Str) : Str → List Str
  | [] => [cur.reverse]
  | c :: rest =>
    if c = sep then cur.reverse :: splitCharAux sep [] rest
    else splitCharAux sep (c :: cur) rest

/-- Model of strings.Split with a single-character separator: Go returns
the list of substrings between separators; the empty string splits to a
one-element list holding the empty string. -/
def splitChar (sep : Char) (s : Str) : List Str :=
  splitCharAux sep [] s

/-- Model of strings.ReplaceAll data "\r\n" "\n": leftmost, non-overlapping
replacement of every carriage-return/line-feed pair by a line feed. -/
def replaceCRLF : Str → Str
  | '\r' :: '\n' :: rest => '\n' :: replaceCRLF rest
  | c :: rest => c :: replaceCRLF rest
  | [] => []

/-- Model of strings.Join xs " ". -/
def joinSpace (xs : List Str) : Str :=
  List.intercalate [' '] xs

/-- Digit-string value: some n when the characters are a non-empty run of
decimal digits, none otherwise. -/
def decDigits? (cs : Str) : Option Nat :=
  if cs = [] then none
  else if cs.all (fun c => '0' ≤ c ∧ c ≤ '9') then
    some (cs.foldl (fun n c => n * 10 + (c.toNat - 48)) 0)
  else none

/-- Model of strconv.Atoi on a 64-bit platform: optional single leading
sign, then a non-empty run of decimal digits; values outside the int64
range yield an error (modelled as none). -/
def goAtoi (s : Str) : Option Int :=
  match s with
  | [] => none
  | '+' :: rest =>
    match decDigits? rest with
    | some n => if (n : Int) ≤ 2 ^ 63 - 1 then some (n : Int) else none
    | none => none
  | '-' :: rest =>
    match decDigits? rest with
    | some n => if (n : Int) ≤ 2 ^ 63 then some (-(n : Int)) else none
    | none => none
  | _ =>
    match decDigits? s with
    | some n => if (n : Int) ≤ 2 ^ 63 - 1 then some (n : Int) else none
    | none => none

/-! Domain model (internal/domain/person.go). -/

/-- Model of domain.ColorMap: partial map from color codes to color names;
lookup in a Go map returns the zero value plus an ok flag, modelled as
Option. -/
def ColorMap (c : Int) : Option Str :=
  if c = 1 then some "blau".toList
  else if c = 2 then some "grün".toList
  else if c = 3 then some "violett".toList
  else if c = 4 then some "rot".toList
  else if c = 5 then some "gelb".toList
  else if c = 6 then some "türkis".toList
  else if c = 7 then some "weiß".toList
  else none

/-- The closed set of the seven canonical color names (the range of
domain.ColorMap, equally the domain of domain.ColorNameID). -/
def colorNames : List Str :=
  ["blau".toList, "grün".toList, "violett".toList, "rot".toList,
   "gelb".toList, "türkis".toList, "weiß".toList]

/-- Model of domain.Person. -/
structure Person where
  id : Int
  name : Str
  lastname : Str
  zipcode : Str
  city : Str
  color : Str
deriving DecidableEq, Repr, Inhabited

/-- Closed set of distinguishable repository error conditions; the Go code
uses wrapped sentinel errors (domain.ErrNotFound, domain.ErrCapacityReached,
domain.ErrInvalidInput) and, for decode failures, ad-hoc errors whose role
the spec names InvalidRecord. -/
inductive RepoErr where
  | notFound
  | capacityReached
  | invalidRecord
  | invalidInput
deriving DecidableEq, Repr

/-- Model of a Go person slice as returned to callers: isNil records
whether the slice is the nil slice (relevant because a nil slice and an
allocated empty slice serialize differently). -/
structure GoSlice where
  isNil : Bool
  elems : List Person
deriving DecidableEq, Repr

/-! Record normalizer (normalizeCSV in internal/repository/csv/csv.go).
The function is embedded as a producer of rows: the Go code additionally
serializes the rows through encoding/csv and has gocsv parse them back,
a value-preserving round trip that only matters for I/O. -/

/-- Model of countNonEmpty: the number of parts whose trimmed form is
non-empty. -/
def countNonEmpty (parts : List Str) : Nat :=
  parts.countP (fun p => !(goTrimSpace p).isEmpty)

/-- Inner loop of normalizeCSV over the raw parts of one line: append
each part whose trimmed form is non-empty to the accumulator. -/
def accumTokens (rawParts : List Str) (acc : List Str) : List Str :=
  match rawParts with
  | [] => acc
  | f :: rest =>
    let t := goTrimSpace f
    if t.isEmpty then accumTokens rest acc
    else accumTokens rest (acc ++ [t])

/-- Record emitted by normalizeCSV from an accumulator of length n (with
4 ≤ n): entries accumulated[0], accumulated[1], the join of
accumulated[2 .. n-1] with single spaces, accumulated[n-1]. -/
def emitFields (acc : List Str) : List Str :=
  [acc.getD 0 [], acc.getD 1 [], joinSpace ((acc.drop 2).dropLast), acc.getLastD []]

/-- Body of the normalizeCSV loop for one physical line: the
accumulation-overflow guard, token accumulation, and conditional record
emission, threading the accumulator and the emitted records. -/
def normalizeLine (acc : List Str) (recs : List (List Str)) (line : Str) :
    List Str × List (List Str) :=
  let rawParts := splitChar ',' line
  let nonEmpty := countNonEmpty rawParts
  let acc' := if acc.length > 0 ∧ nonEmpty ≥ 4 then [] else acc
  let acc'' := accumTokens rawParts acc'
  if acc''.length ≥ 4 then ([], recs ++ [emitFields acc'']) else (acc'', recs)

/-- Data records produced by normalizeCSV (the emitted rows, without the
fixed header row): CRLF is normalized, the input split into lines, and
the per-line loop run with an initially empty accumulator; leftover
accumulated tokens at end of input are discarded. -/
def normalizeCSVRecords (data : Str) : List (List Str) :=
  let lines := splitChar '\n' (replaceCRLF data)
  (lines.foldl (fun st line => normalizeLine st.1 st.2 line) ([], [])).2

/-- Header row prepended by normalizeCSV for gocsv column mapping. -/
def csvHeader : List Str :=
  ["lastname".toList, "name".toList, "zipcity".toList, "colorid".toList]

/-- Model of normalizeCSV: the header row followed by the data records. -/
def normalizeCSV (data : Str) : List (List Str) :=
  csvHeader :: normalizeCSVRecords data

/-! Record decoder (toPerson, splitZipcodeCity in csv.go). -/

/-- Model of personDTO, the intermediate record gocsv fills from one
normalized row (column mapping keyed by the fixed header). -/
structure personDTO where
  lastname : Str
  name : Str
  zipCity : Str
  colorID : Str
deriving DecidableEq, Repr, Inhabited

/-- Column mapping performed by the encoding/csv serialization plus gocsv
parse of a normalized row: the round trip preserves every field value, so
it is modelled as direct field assignment in header order. -/
def recToDTO (r : List Str) : personDTO :=
  { lastname := r.getD 0 [], name := r.getD 1 [],
    zipCity := r.getD 2 [], colorID := r.getD 3 [] }

/-- Model of strings.SplitN s " " 2: some (before, after) split at the
first space character, or none when s holds no space. -/
def splitN2Space : Str → Option (Str × Str)
  | [] => none
  | c :: rest =>
    if c = ' ' then some ([], rest)
    else
      match splitN2Space rest with
      | some (a, b) => some (c :: a, b)
      | none => none

/-- Model of splitZipcodeCity: split at the first space character and trim
both parts; with no space present return the whole string and an empty
city. -/
def splitZipcodeCity (s : Str) : Str × Str :=
  match splitN2Space s with
  | some (a, b) => (goTrimSpace a, goTrimSpace b)
  | none => (s, [])

/-- Model of toPerson: parse the trimmed color-code field with Atoi, look
the code up in ColorMap, split the combined zip-city field, and build the
Person with the supplied identifier; unparseable or unknown codes are the
invalid-record condition. -/
def toPerson (id : Int) (dto : personDTO) : Except RepoErr Person :=
  match goAtoi (goTrimSpace dto.colorID) with
  | none => .error .invalidRecord
  | some code =>
    match ColorMap code with
    | none => .error .invalidRecord
    | some colorName =>
      let zc := splitZipcodeCity dto.zipCity
      .ok { id := id, name := dto.name, lastname := dto.lastname,
            zipcode := zc.1, city := zc.2, color := colorName }

/-! In-memory repository (csv.PersonRepository, revision with
limit/offset pagination). The receiver state is threaded explicitly;
the reader/writer lock serializes operations, so each method is one
atomic state transition. -/

/-- Mutable state of csv.PersonRepository: the ordered person list, the
next-assignable ID, and the configured capacity limit. -/
structure MemRepo where
  persons : List Person
  nextID : Int
  maxPersons : Int
deriving DecidableEq, Repr

/-- Model of applyPagination: clamp a negative offset to zero, return an
allocated empty slice when the offset reaches the length, otherwise
reslice from the offset and cap to a positive limit, copying out. -/
def applyPagination (items : List Person) (limit offset : Int) : GoSlice :=
  let off := if offset < 0 then 0 else offset
  if off ≥ (items.length : Int) then ⟨false, []⟩
  else
    let items' := items.drop off.toNat
    let items'' := if limit > 0 ∧ limit < (items'.length : Int) then items'.take limit.toNat
                   else items'
    ⟨false, items''⟩

namespace Mem

/-- Loop body of load over the decoded DTOs, carried out with the 0-based
index of the current DTO: a DTO that decodes successfully is appended, a
failing one is skipped (and logged). -/
def loadPersonsAux (k : Nat) : List personDTO → List Person
  | [] => []
  | dto :: rest =>
    match toPerson ((k : Int) + 1) dto with
    | .ok p => p :: loadPersonsAux (k + 1) rest
    | .error _ => loadPersonsAux (k + 1) rest

/-- State built by load from the parsed DTO list: persons are the
successfully decoded records with their position-based IDs, and nextID is
the count of all DTOs (decoded or skipped) plus one. -/
def loadState (dtos : List personDTO) (maxPersons : Int) : MemRepo :=
  { persons := loadPersonsAux 0 dtos,
    nextID := (dtos.length : Int) + 1,
    maxPersons := maxPersons }

/-- Model of load on raw file bytes: normalize, parse the rows into DTOs
(the value-preserving gocsv round trip), then decode each row. -/
def load (data : Str) (maxPersons : Int) : MemRepo :=
  loadState ((normalizeCSVRecords data).map recToDTO) maxPersons

/-- Model of the memory GetAll: paginate a copy of the stored list; the
method's error result is the nil constant. -/
def GetAll (r : MemRepo) (limit offset : Int) : Except RepoErr GoSlice :=
  .ok (applyPagination r.persons limit offset)

/-- Model of the memory GetByID: linear scan for the first person with
the requested ID, otherwise the wrapped domain.ErrNotFound. -/
def GetByID (r : MemRepo) (id : Int) : Except RepoErr Person :=
  match r.persons.find? (fun p => p.id = id) with
  | some p => .ok p
  | none => .error .notFound

/-- Model of the memory GetByColor: collect the persons with matching
color in storage order, then paginate; the error result is nil. -/
def GetByColor (r : MemRepo) (color : Str) (limit offset : Int) :
    Except RepoErr GoSlice :=
  .ok (applyPagination (r.persons.filter (fun p => p.color = color)) limit offset)

/-- Model of the memory Add: reject with the capacity condition when a
positive maxPersons is already met, else assign nextID, advance it, and
append; the pair carries the result and the post-state (unchanged on
failure). -/
def Add (r : MemRepo) (person : Person) : Except RepoErr Person × MemRepo :=
  if r.maxPersons > 0 ∧ (r.persons.length : Int) ≥ r.maxPersons then
    (.error .capacityReached, r)
  else
    let stored := { person with id := r.nextID }
    (.ok stored,
     { r with persons := r.persons ++ [stored], nextID := r.nextID + 1 })

end Mem

/-! SQLite repository (sqlite.PersonRepository). The table is modelled as
the list of its rows plus the AUTOINCREMENT sequence value (the largest
ID ever issued); query results model the success path — backend I/O
faults are outside the embedding. -/

/-- State of the persons table: its rows, the AUTOINCREMENT sequence, and
the configured capacity limit. -/
structure SqlRepo where
  rows : List Person
  seq : Int
  maxPersons : Int
deriving DecidableEq, Repr

/-- Model of clampOffset in sqlite.go. -/
def clampOffset (offset : Int) : Int :=
  if offset < 0 then 0 else offset

/-- Rows of SELECT ... ORDER BY id: the table rows sorted by ascending
ID. -/
def sortById (rows : List Person) : List Person :=
  rows.insertionSort (fun a b => a.id ≤ b.id)

/-- Effect of the LIMIT/OFFSET clauses the Go code appends: a positive
limit adds LIMIT limit OFFSET clampOffset(offset); otherwise a positive
offset adds LIMIT -1 OFFSET clampOffset(offset) (LIMIT -1 is unbounded in
SQLite); otherwise no clause. -/
def sqlSlice (sorted : List Person) (limit offset : Int) : List Person :=
  if limit > 0 then (sorted.drop (clampOffset offset).toNat).take limit.toNat
  else if offset > 0 then sorted.drop (clampOffset offset).toNat
  else sorted

namespace Sqlite

/-- Model of the SQLite GetAll: ORDER BY id with the pagination clauses;
queryPersons collects rows into an allocated (never nil) slice. -/
def GetAll (r : SqlRepo) (limit offset : Int) : Except RepoErr GoSlice :=
  .ok ⟨false, sqlSlice (sortById r.rows) limit offset⟩

/-- Model of the SQLite GetByID: the WHERE id = ? row when one exists;
sql.ErrNoRows is mapped to the wrapped domain.ErrNotFound, distinct from
other query failures. -/
def GetByID (r : SqlRepo) (id : Int) : Except RepoErr Person :=
  match r.rows.find? (fun p => p.id = id) with
  | some p => .ok p
  | none => .error .notFound

/-- Model of the SQLite GetByColor: WHERE color = ? ORDER BY id with the
pagination clauses. -/
def GetByColor (r : SqlRepo) (color : Str) (limit offset : Int) :
    Except RepoErr GoSlice :=
  .ok ⟨false, sqlSlice (sortById (r.rows.filter (fun p => p.color = color))) limit offset⟩

/-- Model of the SQLite Add transaction: count the rows and reject with
the capacity condition when a positive maxPersons is met (rolling back,
so the state is unchanged); otherwise insert with the next AUTOINCREMENT
key, read that key back as the Person's ID, and commit. -/
def Add (r : SqlRepo) (person : Person) : Except RepoErr Person × SqlRepo :=
  if r.maxPersons > 0 ∧ (r.rows.length : Int) ≥ r.maxPersons then
    (.error .capacityReached, r)
  else
    let stored := { person with id := r.seq + 1 }
    (.ok stored, { r with rows := r.rows ++ [stored], seq := r.seq + 1 })

end Sqlite

/-! Specification-side definitions. These follow the words of the spec,
not the source, and exist to be compared with the source embeddings. -/

/-- Tokens contributed by one physical line according to the spec: the
line is split on commas, each part trimmed of surrounding whitespace, and
parts that become empty are dropped. -/
def specLineTokens (line : Str) : List Str :=
  ((splitChar ',' line).map goTrimSpace).filter (fun t => !t.isEmpty)

/-- Record emission according to the spec: field 1 is the first token,
field 2 the second token, field 3 the remaining tokens except the last
joined with single spaces, field 4 the last token. -/
def specEmit (acc : List Str) : List Str :=
  [acc.headD [], (acc.drop 1).headD [], joinSpace (acc.dropLast.drop 2), acc.getLastD []]

/-- One step of the spec's normalizer state machine on a physical line:
the overflow guard (discard a non-empty accumulator when the line alone
contributes four or more tokens), appending, and emission of exactly one
record once the accumulator holds four or more tokens. -/
def specStep (acc : List Str) (line : Str) : List Str × List (List Str) :=
  let toks := specLineTokens line
  let acc' := if acc ≠ [] ∧ toks.length ≥ 4 then [] else acc
  let acc'' := acc' ++ toks
  if acc''.length ≥ 4 then ([], [specEmit acc'']) else (acc'', [])

/-- Run of the spec's state machine over the physical lines, collecting
emitted records in order; tokens remaining at the end are discarded. -/
def specRun (acc : List Str) : List Str → List (List Str)
  | [] => []
  | line :: rest =>
    let st := specStep acc line
    st.2 ++ specRun st.1 rest

/-- The spec's description of the whole normalizer: CRLF normalized to
LF, the input split into physical lines, and the state machine run with
an empty accumulator. -/
def specNormalize (data : Str) : List (List Str) :=
  specRun [] (splitChar '\n' (replaceCRLF data))

/-- Zip-city split according to the spec's words: the combined string is
split on the first whitespace run, the zipcode being the prefix before
the run and the city the remainder; with no whitespace the zipcode is the
whole string and the city empty. -/
def specSplitZipcodeCity (s : Str) : Str × Str :=
  let pre := s.takeWhile (fun c => !goIsSpace c)
  let rest := s.dropWhile (fun c => !goIsSpace c)
  if rest.isEmpty then (s, [])
  else (pre, rest.dropWhile goIsSpace)

/-- Independent statement of what splitZipcodeCity computes: split at the
first space character (not at any whitespace run), trimming both parts;
with no space the whole string is the zipcode, untrimmed. -/
def splitAtFirstSpace (s : Str) : Str × Str :=
  match s.dropWhile (fun c => c ≠ ' ') with
  | [] => (s, [])
  | _ :: tail => (goTrimSpace (s.takeWhile (fun c => c ≠ ' ')), goTrimSpace tail)

/-! Supporting lemmas. -/

theorem ColorMap_isSome_iff (c : Int) : (ColorMap c).isSome ↔ 1 ≤ c ∧ c ≤ 7 := by
  unfold ColorMap
  split_ifs <;> simp_all <;> omega

theorem ColorMap_some_mem {c : Int} {s : Str} (h : ColorMap c = some s) :
    s ∈ colorNames := by
  unfold ColorMap at h
  unfold colorNames
  split_ifs at h <;> simp_all

theorem toPerson_ok_iff {id : Int} {dto : personDTO} {p : Person} :
    toPerson id dto = .ok p ↔
      ∃ c nm, goAtoi (goTrimSpace dto.colorID) = some c ∧ ColorMap c = some nm ∧
        p = { id := id, name := dto.name, lastname := dto.lastname,
              zipcode := (splitZipcodeCity dto.zipCity).1,
              city := (splitZipcodeCity dto.zipCity).2, color := nm } := by
  unfold toPerson
  cases hA : goAtoi (goTrimSpace dto.colorID) with
  | none => simp
  | some code =>
    cases hC : ColorMap code with
    | none => simp [hC]
    | some nm =>
      simp only [hC]
      constructor
      · intro h
        exact ⟨code, nm, rfl, hC, by cases h; rfl⟩
      · rintro ⟨c, nm', hc, hcm, hp⟩
        cases hc
        rw [hC] at hcm
        cases hcm
        simp [hp]

theorem toPerson_ok_id {id : Int} {dto : personDTO} {p : Person}
    (h : toPerson id dto = .ok p) : p.id = id := by
  rcases toPerson_ok_iff.mp h with ⟨c, nm, _, _, hp⟩
  simp [hp]

theorem toPerson_ok_color {id : Int} {dto : personDTO} {p : Person}
    (h : toPerson id dto = .ok p) : p.color ∈ colorNames := by
  rcases toPerson_ok_iff.mp h with ⟨c, nm, _, hcm, hp⟩
  have : p.color = nm := by simp [hp]
  exact this ▸ ColorMap_some_mem hcm

/-- Claim C5: for every 4-field normalized record and every identifier,
toPerson fails with the invalid-record condition if and only if the
color-code field does not parse as an integer or the parsed integer is
not one of the 7 recognized codes 1 through 7; on success the returned
Person's color is the fixed canonical name ColorMap maps the code to,
always a member of the closed 7-name set. -/
theorem toPerson_invalid_record_iff (id : Int) (dto : personDTO) :
    (toPerson id dto = .error .invalidRecord ↔
      ¬ ∃ c, goAtoi (goTrimSpace dto.colorID) = some c ∧ 1 ≤ c ∧ c ≤ 7) ∧
    (∀ p, toPerson id dto = .ok p →
      ∃ c, goAtoi (goTrimSpace dto.colorID) = some c ∧
        ColorMap c = some p.color ∧ p.color ∈ colorNames) := by
  constructor
  · unfold toPerson
    cases hA : goAtoi (goTrimSpace dto.colorID) with
    | none => simp
    | some code =>
      cases hC : ColorMap code with
      | none =>
        have hb : ¬ (1 ≤ code ∧ code ≤ 7) := by
          rw [← ColorMap_isSome_iff, hC]
          simp
        simp only [hC]
        constructor
        · rintro - ⟨c, hc, h1, h7⟩
          cases hc
          exact hb ⟨h1, h7⟩
        · intro _
          trivial
      | some nm =>
        have hb : 1 ≤ code ∧ code ≤ 7 := by
          rw [← ColorMap_isSome_iff, hC]
          rfl
        simp only [hC]
        constructor
        · intro h
          exact absurd h (by simp)
        · intro h
          exact absurd ⟨code, rfl, hb.1, hb.2⟩ h
  · intro p h
    rcases toPerson_ok_iff.mp h with ⟨c, nm, hA, hC, hp⟩
    have hcol : p.color = nm := by simp [hp]
    exact ⟨c, hA, hcol ▸ hC, hcol ▸ ColorMap_some_mem hC⟩

/-- Witness for C5: the theorem evaluated at the record of the sample
file's first person (color code 1) at identifier 1. -/
theorem toPerson_invalid_record_iff_witness :
    (toPerson 1 ⟨"Müller".toList, "Hans".toList, "67742 Lauterecken".toList, "1".toList⟩
        = .error .invalidRecord ↔
      ¬ ∃ c, goAtoi (goTrimSpace "1".toList) = some c ∧ 1 ≤ c ∧ c ≤ 7) ∧
    (∀ p, toPerson 1 ⟨"Müller".toList, "Hans".toList, "67742 Lauterecken".toList, "1".toList⟩
        = .ok p →
      ∃ c, goAtoi (goTrimSpace "1".toList) = some c ∧
        ColorMap c = some p.color ∧ p.color ∈ colorNames) :=
  toPerson_invalid_record_iff 1
    ⟨"Müller".toList, "Hans".toList, "67742 Lauterecken".toList, "1".toList⟩

/-- Claim C4: Add fails with the CapacityReached condition if and only if
maxPersons is positive and the current record count is at least
maxPersons; a failing Add leaves the repository state unchanged, and a
succeeding Add stores and returns the Person carrying the
repository-assigned next sequential ID (nextID for the memory variant,
the next AUTOINCREMENT key for the SQL variant, whose transaction is
rolled back on failure). -/
theorem add_capacity_correct (r : MemRepo) (s : SqlRepo) (p : Person) :
    ((Mem.Add r p).1 = .error .capacityReached ↔
      r.maxPersons > 0 ∧ (r.persons.length : Int) ≥ r.maxPersons) ∧
    (∀ e, (Mem.Add r p).1 = .error e → e = .capacityReached ∧ (Mem.Add r p).2 = r) ∧
    (∀ q, (Mem.Add r p).1 = .ok q →
      q = { p with id := r.nextID } ∧
      (Mem.Add r p).2 = { r with persons := r.persons ++ [q], nextID := r.nextID + 1 }) ∧
    ((Sqlite.Add s p).1 = .error .capacityReached ↔
      s.maxPersons > 0 ∧ (s.rows.length : Int) ≥ s.maxPersons) ∧
    (∀ e, (Sqlite.Add s p).1 = .error e → e = .capacityReached ∧ (Sqlite.Add s p).2 = s) ∧
    (∀ q, (Sqlite.Add s p).1 = .ok q →
      q = { p with id := s.seq + 1 } ∧
      (Sqlite.Add s p).2 = { s with rows := s.rows ++ [q], seq := s.seq + 1 }) := by
  by_cases hm : r.maxPersons > 0 ∧ (r.persons.length : Int) ≥ r.maxPersons <;>
    by_cases hs : s.maxPersons > 0 ∧ (s.rows.length : Int) ≥ s.maxPersons <;>
      simp [Mem.Add, Sqlite.Add, hm, hs]

theorem splitN2Space_eq (s : Str) :
    splitN2Space s =
      match s.dropWhile (fun c => c ≠ ' ') with
      | [] => none
      | _ :: tail => some (s.takeWhile (fun c => c ≠ ' '), tail) := by
  induction s with
  | nil => rfl
  | cons c rest ih =>
    by_cases hc : c = ' '
    · subst hc
      simp [splitN2Space, List.dropWhile_cons]
    · rw [show splitN2Space (c :: rest) =
            (match splitN2Space rest with
             | some (a, b) => some (c :: a, b)
             | none => none) from by simp [splitN2Space, hc]]
      rw [ih]
      cases h : rest.dropWhile (fun x => x ≠ ' ') with
      | nil =>
        simp only [decide_not] at h
        simp [List.dropWhile_cons, List.takeWhile_cons, hc, h]
      | cons x tail =>
        simp only [decide_not] at h
        simp [List.dropWhile_cons, List.takeWhile_cons, hc, h]

/-- Counterexample for C6: the decoder does not split on the first
whitespace run; on a combined field holding a tab but no space it
returns the whole string as the zipcode with an empty city, where the
claimed behavior (specSplitZipcodeCity) yields the prefix before the tab
and the remainder. -/
theorem splitZipcodeCity_whitespace_counterexample :
    splitZipcodeCity ['a', '\t', 'b'] = (['a', '\t', 'b'], []) ∧
    specSplitZipcodeCity ['a', '\t', 'b'] = (['a'], ['b']) ∧
    (['a', '\t', 'b'], ([] : Str)) ≠ ((['a'] : Str), (['b'] : Str)) := by
  refine ⟨by decide, by decide, by decide⟩

/-- Claim C6 as amended: for every combined zipcode-city string, the
decoder splits at the first space character (U+0020), not at any
whitespace run: the zipcode is the prefix before that space and the city
the remainder after it, both trimmed of surrounding whitespace; if the
string contains no space character, the zipcode is the whole unmodified
string and the city is empty. -/
theorem splitZipcodeCity_first_space (s : Str) :
    splitZipcodeCity s = splitAtFirstSpace s := by
  unfold splitZipcodeCity splitAtFirstSpace
  rw [splitN2Space_eq]
  cases h : s.dropWhile (fun c => c ≠ ' ') <;> simp

instance : IsTotal Person (fun a b => a.id ≤ b.id) :=
  ⟨fun a b => Int.le_total a.id b.id⟩

instance : IsTrans Person (fun a b => a.id ≤ b.id) :=
  ⟨fun _ _ _ hab hbc => le_trans hab hbc⟩

theorem applyPagination_spec (items : List Person) (limit offset : Int) :
    applyPagination items limit offset =
      ⟨false, (items.drop (max offset 0).toNat).take
        (if 0 < limit then limit.toNat else items.length)⟩ := by
  simp only [applyPagination]
  have hmax : (if offset < 0 then (0 : Int) else offset) = max offset 0 := by omega
  rw [hmax]
  by_cases hge : (max offset 0) ≥ (items.length : Int)
  · rw [if_pos hge]
    have hlen : items.length ≤ (max offset 0).toNat := by omega
    rw [List.drop_eq_nil_of_le hlen]
    simp
  · rw [if_neg hge]
    by_cases hlim : limit > 0 ∧ limit < ((items.drop (max offset 0).toNat).length : Int)
    · rw [if_pos hlim, if_pos hlim.1]
    · rw [if_neg hlim]
      by_cases h0 : 0 < limit
      · rw [if_pos h0]
        have hle : (items.drop (max offset 0).toNat).length ≤ limit.toNat := by
          rcases not_and_or.mp hlim with h | h <;> omega
        rw [List.take_of_length_le hle]
      · rw [if_neg h0]
        have hle : (items.drop (max offset 0).toNat).length ≤ items.length := by
          rw [List.length_drop]
          omega
        rw [List.take_of_length_le hle]

theorem sqlSlice_spec (sorted : List Person) (limit offset : Int) :
    sqlSlice sorted limit offset =
      (sorted.drop (max offset 0).toNat).take
        (if 0 < limit then limit.toNat else sorted.length) := by
  unfold sqlSlice clampOffset
  have hmax : (if offset < 0 then (0 : Int) else offset) = max offset 0 := by omega
  rw [hmax]
  by_cases hl : limit > 0
  · rw [if_pos hl, if_pos hl]
  · rw [if_neg hl, if_neg (show ¬ 0 < limit from hl)]
    by_cases ho : offset > 0
    · rw [if_pos ho]
      have hle : (sorted.drop (max offset 0).toNat).length ≤ sorted.length := by
        rw [List.length_drop]
        omega
      rw [List.take_of_length_le hle]
    · rw [if_neg ho]
      have hz : (max offset 0) = 0 := by omega
      rw [hz]
      simp

/-- Claim C2: for every repository state of N persons and all integers
limit and offset, GetAll succeeds and returns exactly the contiguous
slice of the full ordered record set starting at max(offset, 0), of
length min(max(N - max(offset,0), 0), limit when positive, else
unbounded): a negative offset is clamped to zero, an offset at or past N
yields the empty list, and a non-positive limit means unbounded; for the
memory variant the ordered set is the stored list, for the SQL variant
the rows sorted by ascending ID. -/
theorem getAll_pagination_correct (ps rows : List Person)
    (n m sq mx limit offset : Int) :
    Mem.GetAll ⟨ps, n, m⟩ limit offset =
      .ok ⟨false, (ps.drop (max offset 0).toNat).take
        (if 0 < limit then limit.toNat else ps.length)⟩ ∧
    Sqlite.GetAll ⟨rows, sq, mx⟩ limit offset =
      .ok ⟨false, ((sortById rows).drop (max offset 0).toNat).take
        (if 0 < limit then limit.toNat else rows.length)⟩ ∧
    List.Sorted (fun a b => a.id ≤ b.id) (sortById rows) ∧
    (sortById rows).Perm rows := by
  have hlen : (sortById rows).length = rows.length :=
    (List.perm_insertionSort _ rows).length_eq
  refine ⟨?_, ?_, List.sorted_insertionSort _ rows, List.perm_insertionSort _ rows⟩
  · simp [Mem.GetAll, applyPagination_spec]
  · simp only [Sqlite.GetAll, sqlSlice_spec, hlen]

theorem accumTokens_eq (rawParts : List Str) :
    ∀ acc, accumTokens rawParts acc =
      acc ++ (rawParts.map goTrimSpace).filter (fun t => !t.isEmpty) := by
  induction rawParts with
  | nil =>
    intro acc
    simp [accumTokens]
  | cons f rest ih =>
    intro acc
    by_cases hf : (goTrimSpace f).isEmpty
    · simp [accumTokens, hf, ih, List.filter_cons]
    · simp [accumTokens, hf, ih, List.filter_cons]

theorem countNonEmpty_eq (parts : List Str) :
    countNonEmpty parts =
      ((parts.map goTrimSpace).filter (fun t => !t.isEmpty)).length := by
  unfold countNonEmpty
  rw [List.countP_eq_length_filter, List.filter_map, List.length_map]
  rfl

theorem dropLast_drop_comm (l : List Str) : ∀ n : Nat,
    (l.drop n).dropLast = l.dropLast.drop n := by
  induction l with
  | nil => intro n; simp
  | cons c rest ih =>
    intro n
    cases n with
    | zero => simp
    | succ n =>
      rw [List.drop_succ_cons, ih n]
      cases rest with
      | nil => simp
      | cons d tail => rw [List.dropLast_cons₂, List.drop_succ_cons]

theorem emitFields_eq_specEmit (acc : List Str) : emitFields acc = specEmit acc := by
  have h1 : acc.getD 0 [] = acc.headD [] := by cases acc <;> rfl
  have h2 : acc.getD 1 [] = (acc.drop 1).headD [] := by
    cases acc with
    | nil => rfl
    | cons a t => cases t <;> rfl
  rw [emitFields, specEmit, h1, h2, dropLast_drop_comm]

theorem normalizeLine_eq (acc : List Str) (recs : List (List Str)) (line : Str) :
    normalizeLine acc recs line =
      ((specStep acc line).1, recs ++ (specStep acc line).2) := by
  simp only [normalizeLine, specStep, specLineTokens, accumTokens_eq, countNonEmpty_eq,
    gt_iff_lt, List.length_pos, emitFields_eq_specEmit]
  split_ifs <;> simp

theorem foldl_normalizeLine_eq (lines : List Str) :
    ∀ acc recs,
      (lines.foldl (fun st line => normalizeLine st.1 st.2 line) (acc, recs)).2 =
        recs ++ specRun acc lines := by
  induction lines with
  | nil =>
    intro acc recs
    simp [specRun]
  | cons line rest ih =>
    intro acc recs
    rw [List.foldl_cons]
    show (rest.foldl (fun st line => normalizeLine st.1 st.2 line)
      (normalizeLine acc recs line)).2 = recs ++ specRun acc (line :: rest)
    rw [normalizeLine_eq, ih, specRun]
    simp

/-- Claim C1: for every raw input, the normalizer behaves as the
specified state machine: CRLF normalized to LF, the input split into
physical lines, per-line comma-split/trim/drop-empties, the overflow
guard discarding a non-empty accumulator when the line alone contributes
four or more tokens, emission of exactly one record (first, second,
space-joined middle, last) whenever the accumulator reaches four tokens,
leftover tokens discarded, records in input order, and empty input
producing zero records. -/
theorem normalizeCSV_state_machine_equiv :
    (∀ data : Str, normalizeCSVRecords data = specNormalize data) ∧
    normalizeCSVRecords [] = [] := by
  constructor
  · intro data
    unfold normalizeCSVRecords specNormalize
    rw [foldl_normalizeLine_eq]
    simp
  · rfl

theorem pairwise_take_drop {R : Person → Person → Prop} {l : List Person}
    (h : l.Pairwise R) (n k : Nat) : ((l.drop n).take k).Pairwise R :=
  List.Pairwise.sublist ((List.take_sublist k (l.drop n)).trans (List.drop_sublist n l)) h

theorem mem_take_drop {a : Person} {l : List Person} {n k : Nat}
    (h : a ∈ (l.drop n).take k) : a ∈ l :=
  List.mem_of_mem_drop (List.mem_of_mem_take h)

/-- Claim C8: GetByColor returns exactly the persons whose color equals
the (already-normalized) argument, in ascending-ID order, paginated by
the same rule as GetAll, and on zero matches a present zero-length list
(never nil, never an error), for both variants; the memory variant's
order follows from the stored list being ID-sorted, the SQL variant
sorts. -/
theorem getByColor_filter_pagination_correct (r : MemRepo) (s : SqlRepo)
    (color : Str) (limit offset : Int)
    (hr : r.persons.Pairwise (fun a b => a.id < b.id)) :
    (Mem.GetByColor r color limit offset =
      .ok ⟨false,
        ((r.persons.filter (fun p => p.color = color)).drop (max offset 0).toNat).take
          (if 0 < limit then limit.toNat
           else (r.persons.filter (fun p => p.color = color)).length)⟩) ∧
    (∀ l, Mem.GetByColor r color limit offset = .ok ⟨false, l⟩ →
      l.Pairwise (fun a b => a.id < b.id) ∧ ∀ p ∈ l, p.color = color) ∧
    (r.persons.filter (fun p => p.color = color) = [] →
      Mem.GetByColor r color limit offset = .ok ⟨false, []⟩) ∧
    (Sqlite.GetByColor s color limit offset =
      .ok ⟨false,
        ((sortById (s.rows.filter (fun p => p.color = color))).drop (max offset 0).toNat).take
          (if 0 < limit then limit.toNat
           else (s.rows.filter (fun p => p.color = color)).length)⟩) ∧
    (∀ l, Sqlite.GetByColor s color limit offset = .ok ⟨false, l⟩ →
      l.Pairwise (fun a b => a.id ≤ b.id) ∧ ∀ p ∈ l, p.color = color) ∧
    (s.rows.filter (fun p => p.color = color) = [] →
      Sqlite.GetByColor s color limit offset = .ok ⟨false, []⟩) := by
  have hmem : Mem.GetByColor r color limit offset =
      .ok ⟨false,
        ((r.persons.filter (fun p => p.color = color)).drop (max offset 0).toNat).take
          (if 0 < limit then limit.toNat
           else (r.persons.filter (fun p => p.color = color)).length)⟩ := by
    simp [Mem.GetByColor, applyPagination_spec]
  have hsqllen : (sortById (s.rows.filter (fun p => p.color = color))).length =
      (s.rows.filter (fun p => p.color = color)).length :=
    (List.perm_insertionSort _ _).length_eq
  have hsql : Sqlite.GetByColor s color limit offset =
      .ok ⟨false,
        ((sortById (s.rows.filter (fun p => p.color = color))).drop (max offset 0).toNat).take
          (if 0 < limit then limit.toNat
           else (s.rows.filter (fun p => p.color = color)).length)⟩ := by
    simp only [Sqlite.GetByColor, sqlSlice_spec, hsqllen]
  refine ⟨hmem, ?_, ?_, hsql, ?_, ?_⟩
  · intro l hl
    rw [hmem] at hl
    have hleq := (GoSlice.mk.injEq _ _ _ _).mp (Except.ok.inj hl) |>.2
    subst hleq
    constructor
    · exact pairwise_take_drop (hr.filter _) _ _
    · intro p hp
      have := (List.mem_filter.mp (mem_take_drop hp)).2
      simpa using this
  · intro hempty
    rw [hmem, hempty]
    simp
  · intro l hl
    rw [hsql] at hl
    have hleq := (GoSlice.mk.injEq _ _ _ _).mp (Except.ok.inj hl) |>.2
    subst hleq
    constructor
    · exact pairwise_take_drop (List.sorted_insertionSort _ _) _ _
    · intro p hp
      have hmem' := mem_take_drop hp
      have : p ∈ s.rows.filter (fun p => p.color = color) :=
        (List.perm_insertionSort _ _).mem_iff.mp hmem'
      simpa using (List.mem_filter.mp this).2
  · intro hempty
    rw [hsql, hempty]
    simp [sortById]

/-- Witness for C8: the theorem evaluated at an ID-sorted two-person
memory repository and a one-row SQL table, querying color blau with no
pagination. -/
theorem getByColor_filter_pagination_correct_witness :
    Mem.GetByColor ⟨[⟨1, [], [], [], [], "blau".toList⟩, ⟨2, [], [], [], [], "rot".toList⟩], 3, 0⟩
        "blau".toList 0 0 =
      .ok ⟨false,
        ((([⟨1, [], [], [], [], "blau".toList⟩, ⟨2, [], [], [], [], "rot".toList⟩] : List Person).filter
            (fun p => p.color = "blau".toList)).drop (max (0 : Int) 0).toNat).take
          (if (0 : Int) < 0 then (0 : Int).toNat
           else (([⟨1, [], [], [], [], "blau".toList⟩, ⟨2, [], [], [], [], "rot".toList⟩] : List Person).filter
             (fun p => p.color = "blau".toList)).length)⟩ :=
  (getByColor_filter_pagination_correct
    ⟨[⟨1, [], [], [], [], "blau".toList⟩, ⟨2, [], [], [], [], "rot".toList⟩], 3, 0⟩
    ⟨[⟨1, [], [], [], [], "gelb".toList⟩], 1, 0⟩ "blau".toList 0 0 (by decide)).1

theorem find?_id_some_iff {ps : List Person} {id : Int} {p : Person}
    (hp : ps.Pairwise (fun a b => a.id ≠ b.id)) :
    ps.find? (fun q => q.id = id) = some p ↔ p ∈ ps ∧ p.id = id := by
  constructor
  · intro h
    refine ⟨List.mem_of_find?_eq_some h, by simpa using List.find?_some h⟩
  · rintro ⟨hmem, hid⟩
    induction ps with
    | nil => cases hmem
    | cons a rest ih =>
      rcases List.mem_cons.mp hmem with rfl | hmr
      · rw [List.find?_cons_of_pos _ (by simpa using hid)]
      · have hane : a.id ≠ p.id := (List.pairwise_cons.mp hp).1 p hmr
        rw [List.find?_cons_of_neg _ (by simpa using hid ▸ hane)]
        exact ih (List.pairwise_cons.mp hp).2 hmr

theorem find?_id_none_iff (ps : List Person) (id : Int) :
    ps.find? (fun q => q.id = id) = none ↔ ∀ p ∈ ps, p.id ≠ id := by
  rw [List.find?_eq_none]
  simp

/-- Claim C7: GetByID returns the unique Person whose ID equals the
requested id when one exists, and otherwise fails with the NotFound
condition (the dedicated RepoErr.notFound constructor, distinguishable
from every other failure); in the SQL variant the no-row case maps to
NotFound distinctly from other query failures. -/
theorem getByID_notfound_correct (r : MemRepo) (s : SqlRepo) (id : Int)
    (hr : r.persons.Pairwise (fun a b => a.id ≠ b.id))
    (hs : s.rows.Pairwise (fun a b => a.id ≠ b.id)) :
    (∀ p, Mem.GetByID r id = .ok p ↔ p ∈ r.persons ∧ p.id = id) ∧
    (Mem.GetByID r id = .error .notFound ↔ ∀ p ∈ r.persons, p.id ≠ id) ∧
    (∀ p, Sqlite.GetByID s id = .ok p ↔ p ∈ s.rows ∧ p.id = id) ∧
    (Sqlite.GetByID s id = .error .notFound ↔ ∀ p ∈ s.rows, p.id ≠ id) := by
  refine ⟨?_, ?_, ?_, ?_⟩
  · intro p
    rw [← find?_id_some_iff hr]
    unfold Mem.GetByID
    cases h : r.persons.find? (fun q => q.id = id) <;> simp
  · rw [← find?_id_none_iff r.persons id]
    unfold Mem.GetByID
    cases h : r.persons.find? (fun q => q.id = id) <;> simp
  · intro p
    rw [← find?_id_some_iff hs]
    unfold Sqlite.GetByID
    cases h : s.rows.find? (fun q => q.id = id) <;> simp
  · rw [← find?_id_none_iff s.rows id]
    unfold Sqlite.GetByID
    cases h : s.rows.find? (fun q => q.id = id) <;> simp

theorem loadPersonsAux_mem {dtos : List personDTO} :
    ∀ {k : Nat} {p : Person}, p ∈ Mem.loadPersonsAux k dtos →
      ∃ i : Nat, i < dtos.length ∧
        toPerson ((k : Int) + (i : Int) + 1) (dtos.getD i default) = .ok p := by
  induction dtos with
  | nil =>
    intro k p h
    simp [Mem.loadPersonsAux] at h
  | cons dto rest ih =>
    intro k p h
    cases htp : toPerson ((k : Int) + 1) dto with
    | ok q =>
      simp only [Mem.loadPersonsAux, htp] at h
      rcases List.mem_cons.mp h with rfl | hmr
      · exact ⟨0, by simp, by simpa using htp⟩
      · rcases ih hmr with ⟨i, hi, hok⟩
        refine ⟨i + 1, by simpa using hi, ?_⟩
        have hcast : (k : Int) + ((i + 1 : Nat) : Int) + 1 =
            ((k + 1 : Nat) : Int) + (i : Int) + 1 := by push_cast; ring
        rw [List.getD_cons_succ, hcast]
        exact hok
    | error e =>
      simp only [Mem.loadPersonsAux, htp] at h
      rcases ih h with ⟨i, hi, hok⟩
      refine ⟨i + 1, by simpa using hi, ?_⟩
      have hcast : (k : Int) + ((i + 1 : Nat) : Int) + 1 =
          ((k + 1 : Nat) : Int) + (i : Int) + 1 := by push_cast; ring
      rw [List.getD_cons_succ, hcast]
      exact hok

theorem loadPersonsAux_id_bounds {dtos : List personDTO} {k : Nat} {p : Person}
    (h : p ∈ Mem.loadPersonsAux k dtos) :
    (k : Int) < p.id ∧ p.id ≤ (k : Int) + dtos.length := by
  rcases loadPersonsAux_mem h with ⟨i, hi, hok⟩
  have hid := toPerson_ok_id hok
  omega

theorem loadPersonsAux_pairwise (dtos : List personDTO) :
    ∀ k, (Mem.loadPersonsAux k dtos).Pairwise (fun a b => a.id < b.id) := by
  induction dtos with
  | nil =>
    intro k
    simp [Mem.loadPersonsAux]
  | cons dto rest ih =>
    intro k
    cases htp : toPerson ((k : Int) + 1) dto with
    | ok q =>
      simp only [Mem.loadPersonsAux, htp]
      refine List.pairwise_cons.mpr ⟨?_, ih (k + 1)⟩
      intro b hb
      have hq := toPerson_ok_id htp
      have hbound := (loadPersonsAux_id_bounds hb).1
      omega
    | error e =>
      simp only [Mem.loadPersonsAux, htp]
      exact ih (k + 1)

/-- Claim C3: loading a source whose normalization yields M records, some
of which fail decoding, sets the next-assignable ID to M + 1; every
decoded record keeps its 1-based position i among the M records as its
ID, skipped positions leave unused gaps, and the first subsequent Add
(capacity permitting) is assigned ID M + 1, strictly greater than the
ID of every loaded record and distinct from the position-based ID any of
the M records (loaded or skipped) would have received. -/
theorem load_position_ids_next_id (dtos : List personDTO) (maxP : Int) (p0 : Person)
    (hcap : ¬ (maxP > 0 ∧ (((Mem.loadState dtos maxP).persons.length : Int) ≥ maxP))) :
    (Mem.loadState dtos maxP).nextID = (dtos.length : Int) + 1 ∧
    (∀ p ∈ (Mem.loadState dtos maxP).persons,
      ∃ i : Nat, i < dtos.length ∧
        toPerson ((i : Int) + 1) (dtos.getD i default) = .ok p ∧ p.id = (i : Int) + 1) ∧
    (∃ q r', Mem.Add (Mem.loadState dtos maxP) p0 = (.ok q, r') ∧
      q.id = (dtos.length : Int) + 1 ∧
      (∀ p ∈ (Mem.loadState dtos maxP).persons, p.id < q.id) ∧
      (∀ i : Nat, 1 ≤ i → i ≤ dtos.length → (i : Int) ≠ q.id)) := by
  refine ⟨rfl, ?_, ?_⟩
  · intro p hp
    rcases loadPersonsAux_mem hp with ⟨i, hi, hok⟩
    have hz : ((0 : Nat) : Int) + (i : Int) + 1 = (i : Int) + 1 := by push_cast; ring
    rw [hz] at hok
    exact ⟨i, hi, hok, toPerson_ok_id hok⟩
  · have hcond : ¬ ((Mem.loadState dtos maxP).maxPersons > 0 ∧
        (((Mem.loadState dtos maxP).persons.length : Int) ≥
          (Mem.loadState dtos maxP).maxPersons)) := hcap
    refine ⟨{ p0 with id := (dtos.length : Int) + 1 },
      { Mem.loadState dtos maxP with
        persons := (Mem.loadState dtos maxP).persons ++
          [{ p0 with id := (dtos.length : Int) + 1 }],
        nextID := (dtos.length : Int) + 1 + 1 }, ?_, rfl, ?_, ?_⟩
    · simp only [Mem.Add, if_neg hcond]
      rfl
    · intro p hp
      have := (loadPersonsAux_id_bounds hp).2
      simp only [Mem.loadState] at this ⊢
      omega
    · intro i h1 hM
      simp only [Mem.loadState]
      omega

/-- Memory-repository states reachable in the program: construction by
load from a file, followed by any sequence of Add calls (a rejected Add
leaves the state component unchanged, so one step covers both
outcomes). -/
inductive MemReachable : MemRepo → Prop
  | loaded (dtos : List personDTO) (maxP : Int) :
      MemReachable (Mem.loadState dtos maxP)
  | add (r : MemRepo) (p : Person) :
      MemReachable r → MemReachable (Mem.Add r p).2

/-- Memory-repository states reachable through the program's only Add
call path: service.Add lower-cases and trims the color and rejects any
person whose color is not a key of domain.ColorNameID before calling the
repository, so every Add step carries a person whose color is in the
closed set. -/
inductive MemReachableValid : MemRepo → Prop
  | loaded (dtos : List personDTO) (maxP : Int) :
      MemReachableValid (Mem.loadState dtos maxP)
  | add (r : MemRepo) (p : Person) :
      p.color ∈ colorNames → MemReachableValid r →
      MemReachableValid (Mem.Add r p).2

theorem memReachable_invariant {r : MemRepo} (h : MemReachable r) :
    r.persons.Pairwise (fun a b => a.id < b.id) ∧
    ∀ p ∈ r.persons, p.id < r.nextID := by
  induction h with
  | loaded dtos maxP =>
    refine ⟨loadPersonsAux_pairwise dtos 0, ?_⟩
    intro p hp
    have := (loadPersonsAux_id_bounds hp).2
    simp only [Mem.loadState]
    omega
  | add r p hr ih =>
    by_cases hc : r.maxPersons > 0 ∧ (r.persons.length : Int) ≥ r.maxPersons
    · simpa [Mem.Add, hc] using ih
    · simp only [Mem.Add, if_neg hc]
      constructor
      · rw [List.pairwise_append]
        refine ⟨ih.1, List.pairwise_singleton _ _, ?_⟩
        intro a ha b hb
        rcases List.mem_singleton.mp hb with rfl
        simpa using ih.2 a ha
      · intro x hx
        rcases List.mem_append.mp hx with hx | hx
        · have := ih.2 x hx
          show x.id < r.nextID + 1
          omega
        · rcases List.mem_singleton.mp hx with rfl
          show r.nextID < r.nextID + 1
          omega

theorem memReachableValid_colors {r : MemRepo} (h : MemReachableValid r) :
    ∀ p ∈ r.persons, p.color ∈ colorNames := by
  induction h with
  | loaded dtos maxP =>
    intro p hp
    rcases loadPersonsAux_mem hp with ⟨i, hi, hok⟩
    exact toPerson_ok_color hok
  | add r p hcol hr ih =>
    by_cases hc : r.maxPersons > 0 ∧ (r.persons.length : Int) ≥ r.maxPersons
    · simpa [Mem.Add, hc] using ih
    · simp only [Mem.Add, if_neg hc]
      intro x hx
      rcases List.mem_append.mp hx with hx | hx
      · exact ih x hx
      · rcases List.mem_singleton.mp hx with rfl
        simpa using hcol

/-- Claim C10: every reachable memory-repository state (after
construction from a file and any sequence of successful or
capacity-rejected Adds) has its stored person list strictly increasing
in ID with nextID strictly above every stored ID, and GetAll and
GetByColor return records in storage order without sorting, so their
ascending-ID output follows from the invariant. -/
theorem mem_repo_invariant_sorted (r : MemRepo) (h : MemReachable r) :
    r.persons.Pairwise (fun a b => a.id < b.id) ∧
    (∀ p ∈ r.persons, p.id < r.nextID) ∧
    (∀ limit offset, ∃ s, Mem.GetAll r limit offset = .ok s ∧
      s.isNil = false ∧ s.elems.Pairwise (fun a b => a.id < b.id)) ∧
    (∀ color limit offset, ∃ s, Mem.GetByColor r color limit offset = .ok s ∧
      s.isNil = false ∧ s.elems.Pairwise (fun a b => a.id < b.id)) := by
  obtain ⟨h1, h2⟩ := memReachable_invariant h
  refine ⟨h1, h2, ?_, ?_⟩
  · intro limit offset
    refine ⟨_, rfl, ?_, ?_⟩
    · rw [applyPagination_spec]
    · rw [applyPagination_spec]
      exact pairwise_take_drop h1 _ _
  · intro color limit offset
    refine ⟨_, rfl, ?_, ?_⟩
    · rw [applyPagination_spec]
    · rw [applyPagination_spec]
      exact pairwise_take_drop (h1.filter _) _ _

/-- Witness for C10: the theorem applied to the state loaded from two
sample records (the reachability hypothesis discharged by the load
constructor). -/
theorem mem_repo_invariant_sorted_witness :
    (Mem.loadState
      [⟨"Müller".toList, "Hans".toList, "67742 Lauterecken".toList, "1".toList⟩,
       ⟨"Petersen".toList, "Peter".toList, "18439 Stralsund".toList, "2".toList⟩]
      0).persons.Pairwise (fun a b => a.id < b.id) :=
  (mem_repo_invariant_sorted _
    (MemReachable.loaded
      [⟨"Müller".toList, "Hans".toList, "67742 Lauterecken".toList, "1".toList⟩,
       ⟨"Petersen".toList, "Peter".toList, "18439 Stralsund".toList, "2".toList⟩]
      0)).1

/-- Claim C9: every Person the memory repository exposes (via GetAll,
GetByID, GetByColor, or as an Add result) in any state reachable by load
and service-validated Add calls has a color in the fixed 7-name set, and
a record whose decoding failed is never materialized: every loaded
person is the successful decoding of one of the normalized records. -/
theorem repo_colors_closed_no_failed_records :
    (∀ r, MemReachableValid r →
      (∀ p ∈ r.persons, p.color ∈ colorNames) ∧
      (∀ limit offset s, Mem.GetAll r limit offset = .ok s →
        ∀ p ∈ s.elems, p.color ∈ colorNames) ∧
      (∀ id p, Mem.GetByID r id = .ok p → p.color ∈ colorNames) ∧
      (∀ color limit offset s, Mem.GetByColor r color limit offset = .ok s →
        ∀ p ∈ s.elems, p.color ∈ colorNames) ∧
      (∀ p q r', Mem.Add r p = (.ok q, r') → p.color ∈ colorNames →
        q.color ∈ colorNames)) ∧
    (∀ dtos maxP, ∀ p ∈ (Mem.loadState dtos maxP).persons,
      ∃ i : Nat, i < dtos.length ∧
        toPerson ((i : Int) + 1) (dtos.getD i default) = .ok p) := by
  constructor
  · intro r hreach
    have hinv := memReachableValid_colors hreach
    refine ⟨hinv, ?_, ?_, ?_, ?_⟩
    · intro limit offset s hs
      have : s = applyPagination r.persons limit offset := (Except.ok.inj hs).symm
      subst this
      rw [applyPagination_spec]
      intro p hp
      exact hinv p (mem_take_drop hp)
    · intro id p hp
      have : r.persons.find? (fun q => q.id = id) = some p := by
        unfold Mem.GetByID at hp
        cases h : r.persons.find? (fun q => q.id = id) with
        | some q =>
          rw [h] at hp
          cases hp
          rfl
        | none =>
          rw [h] at hp
          cases hp
      exact hinv p (List.mem_of_find?_eq_some this)
    · intro color limit offset s hs
      have : s = applyPagination (r.persons.filter (fun p => p.color = color))
          limit offset := (Except.ok.inj hs).symm
      subst this
      rw [applyPagination_spec]
      intro p hp
      exact hinv p (List.mem_filter.mp (mem_take_drop hp)).1
    · intro p q r' hadd hcol
      by_cases hc : r.maxPersons > 0 ∧ (r.persons.length : Int) ≥ r.maxPersons
      · simp [Mem.Add, hc] at hadd
      · simp only [Mem.Add, if_neg hc, Prod.mk.injEq] at hadd
        have : q = { p with id := r.nextID } := (Except.ok.inj hadd.1).symm
        subst this
        simpa using hcol
  · intro dtos maxP p hp
    rcases loadPersonsAux_mem hp with ⟨i, hi, hok⟩
    have hz : ((0 : Nat) : Int) + (i : Int) + 1 = (i : Int) + 1 := by push_cast; ring
    rw [hz] at hok
    exact ⟨i, hi, hok⟩

/-- Witness for C9: the color invariant evaluated on the state loaded
from one valid and one undecodable record (reachability discharged by
the load constructor). -/
theorem repo_colors_closed_no_failed_records_witness :
    ∀ p ∈ (Mem.loadState
      [⟨"A".toList, "B".toList, "1 C".toList, "99".toList⟩,
       ⟨"D".toList, "E".toList, "2 F".toList, "3".toList⟩] 0).persons,
      p.color ∈ colorNames :=
  ((repo_colors_closed_no_failed_records).1 _
    (MemReachableValid.loaded
      [⟨"A".toList, "B".toList, "1 C".toList, "99".toList⟩,
       ⟨"D".toList, "E".toList, "2 F".toList, "3".toList⟩] 0)).1

/-- Witness for C3: loading a record with unknown color code 99 followed
by a valid record gives next-assignable ID 3 (both positions counted). -/
theorem load_position_ids_next_id_witness :
    (Mem.loadState
      [⟨"A".toList, "B".toList, "1 C".toList, "99".toList⟩,
       ⟨"D".toList, "E".toList, "2 F".toList, "3".toList⟩] 0).nextID = 3 := by
  have h := (load_position_ids_next_id
    [⟨"A".toList, "B".toList, "1 C".toList, "99".toList⟩,
     ⟨"D".toList, "E".toList, "2 F".toList, "3".toList⟩] 0
    ⟨0, [], [], [], [], "rot".toList⟩ (by decide)).1
  simpa using h

/-- Witness for C7: the theorem evaluated at a two-person memory
repository and a one-row SQL table with distinct IDs, querying id 2. -/
theorem getByID_notfound_correct_witness :
    (Mem.GetByID ⟨[⟨1, [], [], [], [], "blau".toList⟩, ⟨2, [], [], [], [], "rot".toList⟩], 3, 0⟩ 2
        = .ok ⟨2, [], [], [], [], "rot".toList⟩) ∧
    (Sqlite.GetByID ⟨[⟨1, [], [], [], [], "blau".toList⟩], 1, 0⟩ 2 = .error .notFound) := by
  have h := getByID_notfound_correct
    ⟨[⟨1, [], [], [], [], "blau".toList⟩, ⟨2, [], [], [], [], "rot".toList⟩], 3, 0⟩
    ⟨[⟨1, [], [], [], [], "blau".toList⟩], 1, 0⟩ 2
    (by decide) (by decide)
  exact ⟨(h.1 _).mpr (by simp), (h.2.2.2).mpr (by decide)⟩
theorem add_capacity_correct_witness :
    (Mem.Add ⟨[⟨1, [], [], [], [], "blau".toList⟩], 2, 1⟩
      ⟨0, [], [], [], [], "rot".toList⟩).1 = .error .capacityReached :=
  ((add_capacity_correct ⟨[⟨1, [], [], [], [], "blau".toList⟩], 2, 1⟩ ⟨[], 0, 0⟩
      ⟨0, [], [], [], [], "rot".toList⟩).1).mpr (by decide)
